import Mathlib

/-!
Verification of the hash-aware static file server (package fileServer,
file server.go).  Paths and digests are modelled as `List Char`; the
Go string functions used by the source (`strings.Split`,
`strings.LastIndex`, `path.Split`, `path.Clean`, `path.Join`,
`strings.TrimPrefix`, `strings.TrimSuffix`, `strings.TrimLeft`,
`filepath.Ext`, `path.Base`) are embedded as executable functions on
character lists.  The filesystem, the glob primitive and the pluggable
Hasher are injected capabilities, exactly as in the source.
-/

/-- Index of the last occurrence of character `c` in a list; `none` when
absent.  Mirrors Go `strings.LastIndex(s, string(c))` (which returns -1
for absence; the `none` case plays the role of -1). -/
def lastIdxOf (c : Char) : List Char → Option Nat
  | [] => none
  | a :: rest =>
    match lastIdxOf c rest with
    | some i => some (i + 1)
    | none => if a = c then some 0 else none

/-- Go `path.Split`: split after the final slash into (dir, file);
`dir` keeps its trailing slash, `file` has no slash. -/
def pathSplit (p : List Char) : List Char × List Char :=
  match lastIdxOf '/' p with
  | some i => (p.take (i + 1), p.drop (i + 1))
  | none => ([], p)

/-- Go `strings.Split(s, string(sep))` for a one-character separator. -/
def splitOnChar (sep : Char) : List Char → List (List Char)
  | [] => [[]]
  | c :: rest =>
    if c = sep then [] :: splitOnChar sep rest
    else
      match splitOnChar sep rest with
      | [] => [[c]]
      | q :: qs => (c :: q) :: qs

/-- Inverse of `splitOnChar`: join pieces with the separator. -/
def joinChar (sep : Char) : List (List Char) → List Char
  | [] => []
  | [x] => x
  | x :: y :: r => x ++ sep :: joinChar sep (y :: r)

/-- The rebuilding loop of `canonicalPath` (server.go lines 304-312):
walk the dot-separated parts with their positions, skip the part at
position `skip` when the Hasher classifies it as a digest, and join the
kept parts with dots (a dot before every part of nonzero position). -/
def rebuildAux (isH : List Char → Bool) (skip : Nat) : Nat → List (List Char) → List Char
  | _, [] => []
  | i, part :: rest =>
    if i = skip ∧ isH part = true then rebuildAux isH skip (i + 1) rest
    else if i ≠ 0 then ('.' :: part) ++ rebuildAux isH skip (i + 1) rest
    else part ++ rebuildAux isH skip (i + 1) rest

/-- The `index` selection of `canonicalPath` (server.go lines 299-303):
2 when more than two dot-parts are present, except for the
three-parts-with-empty-first (dotfile) degenerate case, else 1. -/
def canonIndex (parts : List (List Char)) : Nat :=
  if parts.length > 2 ∧ ¬(parts.length = 3 ∧ parts.head? = some []) then 2 else 1

/-- Filename part of `canonicalPath`: split the filename on dots and
rebuild it, dropping the part at position `length - index` when the
Hasher classifies it as a digest. -/
def canonicalFile (isH : List Char → Bool) (f : List Char) : List Char :=
  rebuildAux isH ((splitOnChar '.' f).length - canonIndex (splitOnChar '.' f)) 0 (splitOnChar '.' f)

/-- server.go `canonicalPath` (lines 294-315): strip a digest component
out of the filename part of `p`, using the Hasher's `IsHash` to decide
which dot-separated part is a digest. -/
def canonicalPath (isH : List Char → Bool) (p : List Char) : List Char :=
  (pathSplit p).1 ++ canonicalFile isH (pathSplit p).2

/-- server.go `hashedPath` (lines 279-292): insert `"." + h` before the
final extension of the filename (appending it when no extension), and
return `p` unchanged when the digest is empty. -/
def hashedPath (p h : List Char) : List Char :=
  if h = [] then p
  else
    match lastIdxOf '.' (pathSplit p).2 with
    | some i =>
      if 0 < i then
        (pathSplit p).1 ++ ((pathSplit p).2.take i ++ '.' :: (h ++ (pathSplit p).2.drop i))
      else (pathSplit p).1 ++ ((pathSplit p).2 ++ '.' :: h)
    | none => (pathSplit p).1 ++ ((pathSplit p).2 ++ '.' :: h)

/-- Go `strings.TrimPrefix`. -/
def trimPfx (s pre : List Char) : List Char :=
  if pre.isPrefixOf s then s.drop pre.length else s

/-- Go `strings.TrimSuffix`. -/
def trimSfx (s suf : List Char) : List Char :=
  if suf.isSuffixOf s then s.take (s.length - suf.length) else s

/-- Go `strings.TrimLeft(s, ".")`. -/
def trimLeftDots (s : List Char) : List Char := s.dropWhile (fun c => c = '.')

/-- Go `filepath.Ext`: walk the path backwards; stop empty at a path
separator, and return the suffix from the last dot of the final
element.  `extFrom acc r` walks the reversed path `r`, accumulating the
already-passed suffix (in forward order) in `acc`. -/
def extFrom (acc : List Char) : List Char → List Char
  | [] => []
  | c :: rest => if c = '/' then [] else if c = '.' then '.' :: acc else extFrom (c :: acc) rest

/-- Go `filepath.Ext` on a slash-separated path. -/
def filepathExt (p : List Char) : List Char := extFrom [] p.reverse

/-- Segment processing of Go `path.Clean`: drop empty and `.` segments,
let `..` pop the previous segment (kept literally at the head of a
relative path, dropped at the root of a rooted path).  `acc` holds the
output segments in reverse. -/
def cleanSegs (rooted : Bool) : List (List Char) → List (List Char) → List (List Char)
  | acc, [] => acc.reverse
  | acc, seg :: rest =>
    if seg = [] ∨ seg = ['.'] then cleanSegs rooted acc rest
    else if seg = ['.', '.'] then
      match acc with
      | [] => if rooted then cleanSegs rooted [] rest else cleanSegs rooted [['.', '.']] rest
      | top :: acc2 =>
        if top = ['.', '.'] then cleanSegs rooted (seg :: top :: acc2) rest
        else cleanSegs rooted acc2 rest
    else cleanSegs rooted (seg :: acc) rest

/-- Go `path.Clean`: lexical simplification of a slash-separated path
(collapse slashes, resolve `.` and `..`, keep rootedness, return `.`
for an empty result and `/` for an emptied rooted path). -/
def cleanPath (p : List Char) : List Char :=
  if p = [] then ['.']
  else
    if p.head? = some '/' then
      match joinChar '/' (cleanSegs true [] (splitOnChar '/' p)) with
      | [] => ['/']
      | out => '/' :: out
    else
      match joinChar '/' (cleanSegs false [] (splitOnChar '/' p)) with
      | [] => ['.']
      | out => out

/-- Go `path.Join` for two elements: skip empty elements, join the rest
with a slash and clean the result; all-empty input gives the empty
path. -/
def pathJoin (a b : List Char) : List Char :=
  if a = [] ∧ b = [] then []
  else if a = [] then cleanPath b
  else if b = [] then cleanPath a
  else cleanPath (a ++ '/' :: b)

/-- Go `path.Base`: last element of the path after dropping trailing
slashes; `.` for the empty path, `/` when only slashes remain. -/
def pathBase (p : List Char) : List Char :=
  if p = [] then ['.']
  else
    match lastIdxOf '/' ((p.reverse.dropWhile (fun c => c = '/')).reverse) with
    | some i =>
      match ((p.reverse.dropWhile (fun c => c = '/')).reverse).drop (i + 1) with
      | [] => ['/']
      | r => r
    | none =>
      match (p.reverse.dropWhile (fun c => c = '/')).reverse with
      | [] => ['/']
      | r => r

/-- ServeHTTP's first normalization step (server.go lines 46-50):
ensure the request path begins with a slash. -/
def ensureSlash (p : List Char) : List Char :=
  if (['/'] : List Char).isPrefixOf p then p else '/' :: p

/-- Error domain of the server.  `notExist` and `permission` are the os
error classes recognized by `os.IsNotExist` / `os.IsPermission`;
`notFound` and `notRegularFile` are the package sentinel errors
`errNotFound` and `errNotRegularFile` (declared outside server.go;
modelled from the spec as two distinct internal error values); `other`
covers every remaining filesystem / hashing / glob error. -/
inductive Err where
  | notExist
  | permission
  | notFound
  | notRegularFile
  | other (code : Nat)
deriving DecidableEq

/-- Result of `Stat` on an opened file: directory flag, regular-file
flag (Go `Mode().IsRegular()`), name and modification time. -/
structure FileInfo where
  isDir : Bool
  isRegular : Bool
  name : List Char
  modTime : Nat
deriving DecidableEq

instance exceptDecEq {α β : Type} [DecidableEq α] [DecidableEq β] : DecidableEq (Except α β)
  | Except.error a, Except.error b => decidable_of_iff (a = b) (by simp)
  | Except.error _, Except.ok _ => isFalse (by simp)
  | Except.ok _, Except.error _ => isFalse (by simp)
  | Except.ok a, Except.ok b => decidable_of_iff (a = b) (by simp)

/-- An opened `http.File`: its `Stat` outcome and its byte content
(the part of the file the Hasher may read). -/
structure File where
  stat : Except Err FileInfo
  content : List Char
deriving DecidableEq

/-- The pluggable Hasher capability: `hash` digests an opened file
(returning the digest string and an optional error, like Go
`Hash(io.Reader) (string, error)`), `isHash` classifies a string as a
digest. -/
structure Hasher where
  hash : File → List Char × Option Err
  isHash : List Char → Bool

/-- The recognized `Options` fields used by server.go (the `Options`
struct itself is declared outside server.go; modelled from the spec and
from its uses in server.go).  Error handlers are external collaborators
and only the selected error class is modelled. -/
structure Options where
  hasher : Option Hasher
  noHashQueryStrings : Bool
  indexPage : List Char
  redirectTrailingSlash : Bool
  filenames : Option (List (List Char))
  altDir : List Char

/-- The `Server` instance: options, root URL prefix, primary directory,
and the two injected filesystem capabilities (see `fsOpenUnder` and
`globFiles`). -/
structure Server where
  opts : Options
  root : List Char
  dir : List Char
  fsOpen : List Char → List Char → Except Err File
  glob : List Char → Except Err (List (List Char))

/-- Modelled from the spec: the package-level helper `open(dir, path,
fs)` (declared outside server.go) opens `path` under directory `dir`
through the filesystem capability; modelled as the injected function
field `fsOpen` of the server. -/
def fsOpenUnder (s : Server) (dirPath p : List Char) : Except Err File :=
  s.fsOpen dirPath p

/-- Modelled from the spec: Go `filepath.Glob` at the filesystem
boundary - takes a pattern and returns matching filenames or an
error; modelled as the injected function field `glob`. -/
def globFiles (s : Server) (pattern : List Char) : Except Err (List (List Char)) :=
  s.glob pattern

/-- The mutable state of a `Server`: the digest cache `s.hashes`
(canonical path to digest), modelled as an association list where the
most recent insertion is found first. -/
structure ServerState where
  hashes : List (List Char × List Char)
deriving DecidableEq

/-- Lookup in the digest cache (Go map read `s.hashes[p]`). -/
def lookupA : List (List Char × List Char) → List Char → Option (List Char)
  | [], _ => none
  | (k, v) :: rest, p => if k = p then some v else lookupA rest p

/-- Whether an open outcome is a not-found failure
(Go `os.IsNotExist(err)`; false for a successful open). -/
def exceptIsNotExist : Except Err File → Bool
  | Except.error Err.notExist => true
  | _ => false

/-- server.go `Server.open` (lines 317-326): with no alternate
directory open directly under the primary directory; otherwise try the
alternate directory first and retry under the primary directory
exactly when that attempt failed with not-found. -/
def sOpen (s : Server) (p : List Char) : Except Err File :=
  if s.opts.altDir = [] then fsOpenUnder s s.dir p
  else if exceptIsNotExist (fsOpenUnder s s.opts.altDir p) = true then fsOpenUnder s s.dir p
  else fsOpenUnder s s.opts.altDir p

/-- server.go `Server.hash` (lines 179-212): cached digest lookup.
On a cache hit return the digest.  On a miss open the path (failure:
continuable error), `Stat` it (failure: continuable error), reject
non-regular files with the `errNotRegularFile` sentinel, otherwise
digest the content through the Hasher and cache the result.  Returns
((digest, continuable, error), new state); the Hasher is passed
explicitly since every Go call site is guarded by `s.Hasher != nil`. -/
def hashWith (hr : Hasher) (s : Server) (st : ServerState) (p : List Char) :
    (List Char × Bool × Option Err) × ServerState :=
  match lookupA st.hashes p with
  | some h => ((h, false, none), st)
  | none =>
    match sOpen s p with
    | Except.error e => (([], true, some e), st)
    | Except.ok f =>
      match f.stat with
      | Except.error e => (([], true, some e), st)
      | Except.ok d =>
        if d.isRegular = false then (([], false, some Err.notRegularFile), st)
        else
          match hr.hash f with
          | (h, some e) => ((h, false, some e), st)
          | (h, none) => ((h, false, none), ServerState.mk ((p, h) :: st.hashes))

/-- The `Filenames` scan of `hashFromFilename` (server.go lines
226-238): collect every pre-enumerated filename having the
alternate-directory stem prefix (when an alternate directory is
configured) or the primary-directory stem prefix. -/
def hffCollect (s : Server) (fn : List Char) (fns : List (List Char)) : List (List Char) :=
  fns.foldl
    (fun acc filename =>
      let acc2 :=
        if s.opts.altDir ≠ [] ∧ (pathJoin s.opts.altDir fn).isPrefixOf filename
        then acc ++ [filename] else acc
      if (pathJoin s.dir fn).isPrefixOf filename then acc2 ++ [filename] else acc2)
    []

/-- The match loop of `hashFromFilename` (server.go lines 263-272):
for every match whose canonical form ends with the requested path,
extract the candidate digest (strip the extension, take the new
extension, strip its leading dots); a candidate failing `IsHash` aborts
with the not-found error, otherwise the candidate replaces the running
digest `h`. -/
def hffLoop (hr : Hasher) (p ext : List Char) : List Char → List (List Char) → Except Unit (List Char)
  | h, [] => Except.ok h
  | h, m :: rest =>
    if p.isSuffixOf (canonicalPath hr.isHash m) then
      if hr.isHash (trimLeftDots (filepathExt (trimSfx m ext))) = false then Except.error ()
      else hffLoop hr p ext (trimLeftDots (filepathExt (trimSfx m ext))) rest
    else hffLoop hr p ext h rest

/-- Gathering the candidate filenames of `hashFromFilename` (server.go
lines 222-261): either scan the pre-enumerated `Filenames`, or glob
`stem.*ext` (or `path.*` without extension) under the alternate then
the primary directory; a glob error aborts. -/
def hffMatches (s : Server) (p ext fn : List Char) : Except Err (List (List Char)) :=
  match s.opts.filenames with
  | some fns => Except.ok (hffCollect s fn fns)
  | none =>
    match
      (if s.opts.altDir ≠ []
       then globFiles s (pathJoin s.opts.altDir
         (if ext ≠ [] then fn ++ '.' :: '*' :: ext else p ++ ['.', '*']))
       else Except.ok []) with
    | Except.error e => Except.error e
    | Except.ok ms =>
      match globFiles s (pathJoin s.dir
          (if ext ≠ [] then fn ++ '.' :: '*' :: ext else p ++ ['.', '*'])) with
      | Except.error e => Except.error e
      | Except.ok m2 => Except.ok (ms ++ m2)

/-- server.go `Server.hashFromFilename` (lines 214-277): recover a
digest from on-disk hashed filenames.  Cache hit returns immediately;
glob errors and a candidate failing `IsHash` return continuable errors;
otherwise the last validated candidate (or the empty digest when no
match applied) is cached and returned with no error. -/
def hashFromFilename (hr : Hasher) (s : Server) (st : ServerState) (p : List Char) :
    (List Char × Bool × Option Err) × ServerState :=
  match lookupA st.hashes p with
  | some h => ((h, false, none), st)
  | none =>
    match hffMatches s p (filepathExt p) (trimSfx p (filepathExt p)) with
    | Except.error e => (([], true, some e), st)
    | Except.ok ms =>
      match hffLoop hr p (filepathExt p) [] ms with
      | Except.error _ => (([], true, some Err.notFound), st)
      | Except.ok h => ((h, false, none), ServerState.mk ((p, h) :: st.hashes))

/-- server.go `Server.HashedPath` (lines 139-153): the public entry
point producing a hash-busted link.  With no Hasher it joins the root
prefix onto the path.  Otherwise it asks the digest cache; on a
continuable failure it falls back to filename recovery; a remaining
error is returned to the caller, else the hashed path is joined onto
the root. -/
def HashedPath (s : Server) (st : ServerState) (p : List Char) :
    Except Err (List Char) × ServerState :=
  match s.opts.hasher with
  | none => (Except.ok (pathJoin s.root p), st)
  | some hr =>
    match (hashWith hr s st p).1.2.2 with
    | none =>
      (Except.ok (pathJoin s.root (hashedPath p (hashWith hr s st p).1.1)),
       (hashWith hr s st p).2)
    | some e =>
      if (hashWith hr s st p).1.2.1 = true then
        match (hashFromFilename hr s (hashWith hr s st p).2 p).1.2.2 with
        | none =>
          (Except.ok (pathJoin s.root
             (hashedPath p (hashFromFilename hr s (hashWith hr s st p).2 p).1.1)),
           (hashFromFilename hr s (hashWith hr s st p).2 p).2)
        | some e2 => (Except.error e2, (hashFromFilename hr s (hashWith hr s st p).2 p).2)
      else (Except.error e, (hashWith hr s st p).2)

/-- The response classes a request resolution can produce.  Error
handlers are external collaborators; only the selected class
(not-found / forbidden / internal) is recorded, and `content` records
the name and modification time handed to `http.ServeContent`. -/
inductive HResp where
  | redirect (target : List Char)
  | content (name : List Char) (modTime : Nat)
  | notFoundResp
  | forbiddenResp
  | internalErrorResp
deriving DecidableEq

/-- server.go `httpError` (lines 155-177): classify an error as
not-found (`os.IsNotExist` or the `errNotFound` sentinel), forbidden
(`os.IsPermission`) or internal, and delegate to the matching
handler. -/
def httpError (e : Err) : HResp :=
  if e = Err.notExist ∨ e = Err.notFound then HResp.notFoundResp
  else if e = Err.permission then HResp.forbiddenResp
  else HResp.internalErrorResp

/-- The final serving decision (server.go lines 130-135): a directory
left after index expansion is not-found, otherwise the entry's name and
modification time are served. -/
def serveFinal (st : ServerState) (d : FileInfo) : HResp × ServerState :=
  if d.isDir = true then (httpError Err.notFound, st)
  else (HResp.content d.name d.modTime, st)

/-- Directory index expansion (server.go lines 117-128): for a
directory, try to open `trimSuffix(p, "/") + IndexPage`; when both the
open and its `Stat` succeed that entry replaces the directory. -/
def serveDir (s : Server) (st : ServerState) (p : List Char) (d : FileInfo) :
    HResp × ServerState :=
  if d.isDir = true then
    match sOpen s (trimSfx p ['/'] ++ s.opts.indexPage) with
    | Except.ok ff =>
      match ff.stat with
      | Except.ok dd => serveFinal st dd
      | Except.error _ => serveFinal st d
    | Except.error _ => serveFinal st d
  else serveFinal st d

/-- The open-and-serve tail of `ServeHTTP` (server.go lines 89-135):
open the working path `p` (errors are classified), `Stat` it, apply the
trailing-slash redirect policy against the in-flight request path
`rURL`, then expand directories and serve. -/
def serveOpen (s : Server) (st : ServerState) (p rURL : List Char) : HResp × ServerState :=
  match sOpen s p with
  | Except.error e => (httpError e, st)
  | Except.ok f =>
    match f.stat with
    | Except.error e => (httpError e, st)
    | Except.ok d =>
      if s.opts.redirectTrailingSlash = true ∧ d.isDir = true ∧ rURL.getLast? ≠ some '/' then
        (HResp.redirect (rURL ++ ['/']), st)
      else if s.opts.redirectTrailingSlash = true ∧ d.isDir = false ∧ rURL.getLast? = some '/' then
        (HResp.redirect ('.' :: '.' :: '/' :: pathBase rURL), st)
      else serveDir s st p d

/-- The hash-redirect block of `ServeHTTP` (server.go lines 67-88) once
the Hasher and query-string guard passed: look up the digest of the
canonical path.  `errNotRegularFile` falls through to the ordinary open
path; success redirects to the differing hashed path (root re-applied)
or applies the trailing-slash redirect, else adopts the canonical path;
a non-continuable error is rendered, a continuable one falls through. -/
def serveHashCore (hr : Hasher) (s : Server) (st : ServerState) (p2 urlPath : List Char) :
    HResp × ServerState :=
  match (hashWith hr s st (canonicalPath hr.isHash p2)).1.2.2 with
  | some Err.notRegularFile =>
    serveOpen s (hashWith hr s st (canonicalPath hr.isHash p2)).2 p2 urlPath
  | none =>
    if hashedPath (canonicalPath hr.isHash p2) (hashWith hr s st (canonicalPath hr.isHash p2)).1.1 ≠ p2 then
      (HResp.redirect (pathJoin s.root
         (hashedPath (canonicalPath hr.isHash p2)
           (hashWith hr s st (canonicalPath hr.isHash p2)).1.1)),
       (hashWith hr s st (canonicalPath hr.isHash p2)).2)
    else if s.opts.redirectTrailingSlash = true ∧ urlPath.getLast? = some '/' then
      (HResp.redirect (pathJoin s.root p2), (hashWith hr s st (canonicalPath hr.isHash p2)).2)
    else
      serveOpen s (hashWith hr s st (canonicalPath hr.isHash p2)).2
        (canonicalPath hr.isHash p2) (pathJoin s.root (canonicalPath hr.isHash p2))
  | some e =>
    if (hashWith hr s st (canonicalPath hr.isHash p2)).1.2.1 = false then
      (httpError e, (hashWith hr s st (canonicalPath hr.isHash p2)).2)
    else serveOpen s (hashWith hr s st (canonicalPath hr.isHash p2)).2 p2 urlPath

/-- The Hasher guard of `ServeHTTP` (server.go lines 65-66): the hash
block runs when a Hasher is configured and, under
`NoHashQueryStrings`, only for requests without a query string. -/
def serveHash (s : Server) (st : ServerState) (p2 urlPath rawQuery : List Char) :
    HResp × ServerState :=
  match s.opts.hasher with
  | none => serveOpen s st p2 urlPath
  | some hr =>
    if s.opts.noHashQueryStrings = false ∨
        (s.opts.noHashQueryStrings = true ∧ rawQuery = []) then
      serveHashCore hr s st p2 urlPath
    else serveOpen s st p2 urlPath

/-- The index-page shortcut of `ServeHTTP` (server.go lines 60-63):
a raw request path ending in the configured index page is redirected
to `./`. -/
def serveAfterStrip (s : Server) (st : ServerState) (p2 urlPath rawQuery : List Char) :
    HResp × ServerState :=
  if s.opts.indexPage ≠ [] ∧ s.opts.indexPage.isSuffixOf urlPath = true then
    (HResp.redirect ['.', '/'], st)
  else serveHash s st p2 urlPath rawQuery

/-- The working path after root-prefix stripping (server.go lines
51-58): the cleaned slash-ensured request path, with the configured
non-empty root prefix trimmed off. -/
def strippedP (s : Server) (reqPath : List Char) : List Char :=
  if s.root ≠ [] then trimPfx (cleanPath (ensureSlash reqPath)) s.root
  else cleanPath (ensureSlash reqPath)

/-- server.go `ServeHTTP` (lines 45-136): normalize the request path,
enforce the root prefix (not-found when stripping the prefix from the
cleaned path leaves it at least as long as the raw request path), then
run the index shortcut, the hash-redirect block and the open-and-serve
tail. -/
def serveHTTP (s : Server) (st : ServerState) (reqPath rawQuery : List Char) :
    HResp × ServerState :=
  if s.root ≠ [] ∧
      (trimPfx (cleanPath (ensureSlash reqPath)) s.root).length ≥ (ensureSlash reqPath).length then
    (httpError Err.notFound, st)
  else serveAfterStrip s st (strippedP s reqPath) (ensureSlash reqPath) rawQuery

/-- A Hasher test double whose digests are exactly the string
`"dead"`. -/
def hashDead : Hasher :=
  ⟨fun _ => (['d', 'e', 'a', 'd'], none), fun l => l == ['d', 'e', 'a', 'd']⟩

/-- A Hasher test double that recognizes nothing as a digest and
digests everything to the empty string. -/
def hashNone : Hasher := ⟨fun _ => ([], none), fun _ => false⟩

/-- A Hasher test double whose digests are exactly the string `"a.b"`
(a digest containing a dot). -/
def hashDotted : Hasher := ⟨fun _ => (['a', '.', 'b'], none), fun l => l == ['a', '.', 'b']⟩

/-- A concrete regular file (name `a`, modification time 7). -/
def regFile : File := ⟨Except.ok ⟨false, true, ['a'], 7⟩, ['x']⟩

/-- A concrete directory entry. -/
def dirFile : File := ⟨Except.ok ⟨true, false, ['d'], 0⟩, []⟩

/-- The empty server state (fresh digest cache). -/
def st0 : ServerState := ⟨[]⟩

/-- Server with root `/r`, primary directory `d`, the `"dead"` Hasher,
and a filesystem on which every open yields the regular file. -/
def c2srv : Server :=
  ⟨⟨some hashDead, false, [], false, none, []⟩, ['/', 'r'], ['d'],
   fun _ _ => Except.ok regFile, fun _ => Except.ok []⟩

/-- Request path `/r/css/app.css` for the redirect scenario. -/
def c2req : List Char :=
  ['/', 'r', '/', 'c', 's', 's', '/', 'a', 'p', 'p', '.', 'c', 's', 's']

/-- Server with the nothing-matches Hasher and the pre-enumerated
filename list `["d/a.css"]` (primary directory `d`, no alternate). -/
def c3srv : Server :=
  ⟨⟨some hashNone, false, [], false, some [['d', '/', 'a', '.', 'c', 's', 's']], []⟩,
   [], ['d'], fun _ _ => Except.error Err.notExist, fun _ => Except.ok []⟩

/-- Request path `/a.css` for the filename-recovery scenario. -/
def c3p : List Char := ['/', 'a', '.', 'c', 's', 's']

/-- Server whose filesystem always opens a directory entry, with the
`"dead"` Hasher configured. -/
def c4srv : Server :=
  ⟨⟨some hashDead, false, [], false, none, []⟩, [], ['d'],
   fun _ _ => Except.ok dirFile, fun _ => Except.ok []⟩

/-- Server with no Hasher, root prefix `/x`, and a filesystem on which
every open yields the regular file. -/
def c5srv : Server :=
  ⟨⟨none, false, [], false, none, []⟩, ['/', 'x'], ['d'],
   fun _ _ => Except.ok regFile, fun _ => Except.ok []⟩

/-- Request path `/a//` whose cleaned form `/a` does not begin with the
root prefix `/x` but is shorter than the raw path. -/
def c5req : List Char := ['/', 'a', '/', '/']

/-- Server with alternate directory `alt` on which opening under the
alternate directory fails with not-found while the primary directory
succeeds. -/
def c6srvA : Server :=
  ⟨⟨none, false, [], false, none, ['a', 'l', 't']⟩, [], ['d'],
   fun dp _ => if dp = ['a', 'l', 't'] then Except.error Err.notExist else Except.ok regFile,
   fun _ => Except.ok []⟩

/-- Server with alternate directory `alt` on which opening under the
alternate directory fails with a permission error. -/
def c6srvB : Server :=
  ⟨⟨none, false, [], false, none, ['a', 'l', 't']⟩, [], ['d'],
   fun dp _ => if dp = ['a', 'l', 't'] then Except.error Err.permission else Except.ok regFile,
   fun _ => Except.ok []⟩

/-- Cache-hit behavior of `hash`: a cached digest is returned
immediately with no error and no state change. -/
theorem hashWith_hit (hr : Hasher) (s : Server) (st : ServerState) (p h : List Char)
    (hL : lookupA st.hashes p = some h) :
    hashWith hr s st p = ((h, false, none), st) := by
  unfold hashWith
  rw [hL]

/-- After a successful `hash` call the digest is in the cache of the
resulting state. -/
theorem hashWith_cached (hr : Hasher) (s : Server) (st : ServerState) (p : List Char)
    (hE : (hashWith hr s st p).1.2.2 = none) :
    lookupA (hashWith hr s st p).2.hashes p = some (hashWith hr s st p).1.1 := by
  unfold hashWith at hE ⊢
  cases hL : lookupA st.hashes p with
  | some h => simp only [hL]
  | none =>
    simp only [hL] at hE ⊢
    cases hO : sOpen s p with
    | error e => simp only [hO] at hE; exact absurd hE (by simp)
    | ok f =>
      simp only [hO] at hE ⊢
      cases hS : f.stat with
      | error e => simp only [hS] at hE; exact absurd hE (by simp)
      | ok d =>
        simp only [hS] at hE ⊢
        cases hR : d.isRegular with
        | false => simp only [hR] at hE; exact absurd hE (by simp)
        | true =>
          simp only [hR] at hE ⊢
          cases hH : hr.hash f with
          | mk h oe =>
            cases oe with
            | some e => simp only [hH] at hE; exact absurd hE (by simp)
            | none => simp only [hH]; simp [lookupA]

/-- Claim C9: empty-digest identity - `hashedPath(c, "")` returns the
path unchanged, with no rewriting. -/
theorem hashedPath_empty_digest (p : List Char) : hashedPath p [] = p := by
  simp [hashedPath]

/-- Claim C6: directory fallback precedence of `Server.open` - with no
alternate directory the primary directory is used directly; with one,
a not-found failure of the alternate attempt retries under the primary
directory, and any other outcome of the alternate attempt (success or a
different error) is returned unchanged. -/
theorem sOpen_fallback (s : Server) (p : List Char) :
    (s.opts.altDir = [] → sOpen s p = fsOpenUnder s s.dir p) ∧
    (s.opts.altDir ≠ [] → fsOpenUnder s s.opts.altDir p = Except.error Err.notExist →
      sOpen s p = fsOpenUnder s s.dir p) ∧
    (s.opts.altDir ≠ [] → exceptIsNotExist (fsOpenUnder s s.opts.altDir p) = false →
      sOpen s p = fsOpenUnder s s.opts.altDir p) := by
  refine ⟨fun h1 => by simp [sOpen, h1], fun h1 h2 => ?_, fun h1 h2 => by simp [sOpen, h1, h2]⟩
  simp [sOpen, h1, h2, exceptIsNotExist]

/-- Witness for C6: on a concrete server the alternate-directory
not-found falls back to the primary directory, and a concrete
permission error in the alternate directory is returned unchanged. -/
theorem sOpen_fallback_witness :
    sOpen c6srvA ['/', 'a'] = fsOpenUnder c6srvA c6srvA.dir ['/', 'a'] ∧
    sOpen c6srvB ['/', 'a'] = fsOpenUnder c6srvB c6srvB.opts.altDir ['/', 'a'] :=
  ⟨(sOpen_fallback c6srvA ['/', 'a']).2.1 (by decide) (by rfl),
   (sOpen_fallback c6srvB ['/', 'a']).2.2 (by decide) (by rfl)⟩

/-- Claim C10: with no Hasher configured the public `HashedPath` entry
point returns `path.Join(root, p)` with no error and leaves the digest
cache untouched (the result holds for every server with no Hasher,
independently of its filesystem capabilities, so no filesystem open and
no Hasher call can be involved). -/
theorem HashedPath_no_hasher (s : Server) (st : ServerState) (p : List Char)
    (h : s.opts.hasher = none) :
    HashedPath s st p = (Except.ok (pathJoin s.root p), st) := by
  unfold HashedPath
  rw [h]

/-- Witness for C10 at a concrete no-Hasher server. -/
theorem HashedPath_no_hasher_witness :
    HashedPath c5srv st0 ['/', 'a'] = (Except.ok (pathJoin c5srv.root ['/', 'a']), st0) :=
  HashedPath_no_hasher c5srv st0 ['/', 'a'] (by rfl)

/-- Claim C8: idempotent cache - when a first `hash` call returns
digest `h` with no error, a second sequential call on the same path
returns the same digest with no error and an unchanged state, and it
does so for every Hasher and every server (hence without opening the
filesystem or invoking the Hasher: the cache hit returns immediately). -/
theorem hash_idempotent_cache (hr : Hasher) (s : Server) (st : ServerState) (p h : List Char)
    (hE : (hashWith hr s st p).1.2.2 = none)
    (hV : (hashWith hr s st p).1.1 = h) :
    ∀ (hr2 : Hasher) (s2 : Server),
      hashWith hr2 s2 (hashWith hr s st p).2 p = ((h, false, none), (hashWith hr s st p).2) :=
  fun hr2 s2 => hV ▸ hashWith_hit hr2 s2 (hashWith hr s st p).2 p (hashWith hr s st p).1.1
    (hashWith_cached hr s st p hE)

/-- Witness for C8: the second lookup of `/a` on a concrete server
returns the cached digest and the unchanged state. -/
theorem hash_idempotent_cache_witness :
    hashWith hashDead c2srv (hashWith hashDead c2srv st0 ['/', 'a']).2 ['/', 'a'] =
      ((['d', 'e', 'a', 'd'], false, none), (hashWith hashDead c2srv st0 ['/', 'a']).2) :=
  hash_idempotent_cache hashDead c2srv st0 ['/', 'a'] ['d', 'e', 'a', 'd'] (by rfl) (by rfl)
    hashDead c2srv

/-- Claim C3 (amended): every error returned by `hashFromFilename` is
continuable (`cont = true`) - in particular the not-found error
produced when a candidate digest segment fails `IsHash` validation;
when no filename matches at all the function instead returns an empty
digest with no error. -/
theorem hashFromFilename_error_continuable (hr : Hasher) (s : Server) (st : ServerState)
    (p : List Char) (e : Err)
    (hE : (hashFromFilename hr s st p).1.2.2 = some e) :
    (hashFromFilename hr s st p).1.2.1 = true := by
  unfold hashFromFilename at hE ⊢
  cases hL : lookupA st.hashes p with
  | some h => simp only [hL] at hE; exact absurd hE (by simp)
  | none =>
    simp only [hL] at hE ⊢
    cases hM : hffMatches s p (filepathExt p) (trimSfx p (filepathExt p)) with
    | error e2 => simp only [hM]
    | ok ms =>
      simp only [hM] at hE ⊢
      cases hLp : hffLoop hr p (filepathExt p) [] ms with
      | error u => simp only [hLp]
      | ok h => simp only [hLp] at hE; exact absurd hE (by simp)

/-- Counterexample for C3 as stated: on a concrete server whose
enumerated filename list contains the canonical file itself, the
candidate digest segment is empty and fails `IsHash`, and
`hashFromFilename` returns the not-found error with
`continuable = true`, not `false`. -/
theorem hashFromFilename_claim_counterexample :
    hashFromFilename hashNone c3srv st0 c3p = (([], true, some Err.notFound), st0) ∧
    (hashFromFilename hashNone c3srv st0 c3p).1.2.1 ≠ false := by decide

/-- Witness for the amended C3 at the concrete failing input. -/
theorem hashFromFilename_error_continuable_witness :
    (hashFromFilename hashNone c3srv st0 c3p).1.2.1 = true :=
  hashFromFilename_error_continuable hashNone c3srv st0 c3p Err.notFound (by rfl)

/-- Claim C5 (amended): with a non-empty root prefix, ServeHTTP
responds not-found exactly under the code's guard - when stripping the
prefix from the cleaned path leaves it at least as long as the
slash-ensured raw request path.  (A cleaned path that does not begin
with the prefix can escape this check when cleaning shortened the raw
path; see the counterexample.) -/
theorem serveHTTP_rootStrip_notFound (s : Server) (st : ServerState)
    (reqPath rawQuery : List Char)
    (hc : s.root ≠ [] ∧
      (trimPfx (cleanPath (ensureSlash reqPath)) s.root).length ≥ (ensureSlash reqPath).length) :
    serveHTTP s st reqPath rawQuery = (HResp.notFoundResp, st) := by
  unfold serveHTTP
  rw [if_pos hc]
  rfl

/-- Counterexample for C5 as stated: requesting `/a//` against root
`/x` cleans to `/a`, which does not begin with the prefix, yet the
stripped length (2) is below the raw length (4), so ServeHTTP serves
the file instead of responding not-found. -/
theorem rootStrip_claim_counterexample :
    c5srv.root ≠ [] ∧
    List.isPrefixOf c5srv.root (cleanPath (ensureSlash c5req)) = false ∧
    serveHTTP c5srv st0 c5req [] = (HResp.content ['a'] 7, st0) ∧
    (serveHTTP c5srv st0 c5req []).1 ≠ HResp.notFoundResp := by decide

/-- Witness for the amended C5 at a concrete request caught by the
guard. -/
theorem serveHTTP_rootStrip_notFound_witness :
    serveHTTP c5srv st0 ['/', 'y'] [] = (HResp.notFoundResp, st0) :=
  serveHTTP_rootStrip_notFound c5srv st0 ['/', 'y'] [] (by decide)

/-- Claim C2: hash redirect - when a Hasher is configured (and the
query-string guard admits the request), the request survives root
stripping and the index-page shortcut, and the digest lookup for the
canonical form of the cleaned stripped path succeeds with digest `h`
whose hashed path differs from that stripped path, then ServeHTTP
responds with a redirect to the hashed path with the root prefix
re-applied. -/
theorem serveHTTP_hash_redirect (s : Server) (st : ServerState) (reqPath rawQuery : List Char)
    (hr : Hasher) (h : List Char)
    (hH : s.opts.hasher = some hr)
    (hQ : s.opts.noHashQueryStrings = false ∨ (s.opts.noHashQueryStrings = true ∧ rawQuery = []))
    (hRoot : ¬(s.root ≠ [] ∧
      (trimPfx (cleanPath (ensureSlash reqPath)) s.root).length ≥ (ensureSlash reqPath).length))
    (hIdx : ¬(s.opts.indexPage ≠ [] ∧ s.opts.indexPage.isSuffixOf (ensureSlash reqPath) = true))
    (hE : (hashWith hr s st (canonicalPath hr.isHash (strippedP s reqPath))).1.2.2 = none)
    (hV : (hashWith hr s st (canonicalPath hr.isHash (strippedP s reqPath))).1.1 = h)
    (hD : hashedPath (canonicalPath hr.isHash (strippedP s reqPath)) h ≠ strippedP s reqPath) :
    serveHTTP s st reqPath rawQuery =
      (HResp.redirect (pathJoin s.root
         (hashedPath (canonicalPath hr.isHash (strippedP s reqPath)) h)),
       (hashWith hr s st (canonicalPath hr.isHash (strippedP s reqPath))).2) := by
  unfold serveHTTP
  rw [if_neg hRoot]
  unfold serveAfterStrip
  rw [if_neg hIdx]
  unfold serveHash
  simp only [hH]
  rw [if_pos hQ]
  unfold serveHashCore
  simp only [hE]
  rw [hV]
  rw [if_pos hD]

/-- Witness for C2: the concrete redirect scenario - requesting
`/r/css/app.css` with current digest `dead` and root `/r` redirects to
the hashed path with the root re-applied. -/
theorem serveHTTP_hash_redirect_witness :
    serveHTTP c2srv st0 c2req [] =
      (HResp.redirect (pathJoin c2srv.root
         (hashedPath (canonicalPath hashDead.isHash (strippedP c2srv c2req)) ['d', 'e', 'a', 'd'])),
       (hashWith hashDead c2srv st0 (canonicalPath hashDead.isHash (strippedP c2srv c2req))).2) :=
  serveHTTP_hash_redirect c2srv st0 c2req [] hashDead ['d', 'e', 'a', 'd'] rfl (Or.inl rfl)
    (by decide) (by decide) (by rfl) (by rfl) (by decide)

/-- Claim C4 (amended): ServeHTTP always converts the
not-a-regular-file error from the digest lookup into the ordinary
(non-hashed) open code path; the public `HashedPath` entry point,
however, does surface `errNotRegularFile` to its caller, because the
digest lookup reports it as not continuable, which skips the filename
recovery fallback. -/
theorem notRegularFile_handling :
    (∀ (s : Server) (st : ServerState) (reqPath rawQuery : List Char) (hr : Hasher),
      s.opts.hasher = some hr →
      (s.opts.noHashQueryStrings = false ∨
        (s.opts.noHashQueryStrings = true ∧ rawQuery = [])) →
      ¬(s.root ≠ [] ∧
        (trimPfx (cleanPath (ensureSlash reqPath)) s.root).length ≥
          (ensureSlash reqPath).length) →
      ¬(s.opts.indexPage ≠ [] ∧ s.opts.indexPage.isSuffixOf (ensureSlash reqPath) = true) →
      (hashWith hr s st (canonicalPath hr.isHash (strippedP s reqPath))).1.2.2 =
        some Err.notRegularFile →
      serveHTTP s st reqPath rawQuery =
        serveOpen s (hashWith hr s st (canonicalPath hr.isHash (strippedP s reqPath))).2
          (strippedP s reqPath) (ensureSlash reqPath)) ∧
    (∀ (s : Server) (st : ServerState) (p : List Char) (hr : Hasher),
      s.opts.hasher = some hr →
      (hashWith hr s st p).1.2.2 = some Err.notRegularFile →
      (hashWith hr s st p).1.2.1 = false →
      HashedPath s st p = (Except.error Err.notRegularFile, (hashWith hr s st p).2)) := by
  constructor
  · intro s st reqPath rawQuery hr hH hQ hRoot hIdx hE
    unfold serveHTTP
    rw [if_neg hRoot]
    unfold serveAfterStrip
    rw [if_neg hIdx]
    unfold serveHash
    simp only [hH]
    rw [if_pos hQ]
    unfold serveHashCore
    simp only [hE]
  · intro s st p hr hH hE hC
    unfold HashedPath
    simp only [hH]
    simp only [hE, hC]
    simp

/-- Counterexample for C4 as stated: on a server whose filesystem
opens a directory entry for the requested path, the public
`HashedPath` returns `errNotRegularFile` to the caller instead of a
fallback. -/
theorem notRegularFile_claim_counterexample :
    HashedPath c4srv st0 ['/', 'a'] = (Except.error Err.notRegularFile, st0) := by decide

/-- Witness for the amended C4 on concrete inputs: ServeHTTP takes the
fallback open path, and `HashedPath` surfaces the error. -/
theorem notRegularFile_handling_witness :
    serveHTTP c4srv st0 ['/', 'a'] [] =
      serveOpen c4srv
        (hashWith hashDead c4srv st0 (canonicalPath hashDead.isHash (strippedP c4srv ['/', 'a']))).2
        (strippedP c4srv ['/', 'a']) (ensureSlash ['/', 'a']) ∧
    HashedPath c4srv st0 ['/', 'b'] =
      (Except.error Err.notRegularFile, (hashWith hashDead c4srv st0 ['/', 'b']).2) :=
  ⟨notRegularFile_handling.1 c4srv st0 ['/', 'a'] [] hashDead rfl (Or.inl rfl) (by decide)
     (by decide) (by rfl),
   notRegularFile_handling.2 c4srv st0 ['/', 'b'] hashDead rfl (by rfl) (by rfl)⟩

/-- Claim C7 (amended): dotfile safety holds relative to the Hasher -
`canonicalPath("/.env")` returns `/.env` unchanged whenever the Hasher
does not classify `env` as a digest.  (A two-segment dotfile's last
segment is the digest candidate and is removed when `IsHash` accepts
it, as the counterexample shows; the three-segments-with-empty-first
guard only keeps the candidate at the last segment instead of the
second-to-last.) -/
theorem canonicalPath_dotfile_safety :
    ∀ (isH : List Char → Bool), isH ['e', 'n', 'v'] = false →
      canonicalPath isH ['/', '.', 'e', 'n', 'v'] = ['/', '.', 'e', 'n', 'v'] := by
  intro isH hEnv
  show (pathSplit ['/', '.', 'e', 'n', 'v']).1 ++
      canonicalFile isH (pathSplit ['/', '.', 'e', 'n', 'v']).2 = _
  have h1 : pathSplit ['/', '.', 'e', 'n', 'v'] = (['/'], ['.', 'e', 'n', 'v']) := by decide
  rw [h1]
  show ['/'] ++ rebuildAux isH
      ((splitOnChar '.' ['.', 'e', 'n', 'v']).length -
        canonIndex (splitOnChar '.' ['.', 'e', 'n', 'v'])) 0
      (splitOnChar '.' ['.', 'e', 'n', 'v']) = _
  have h2 : splitOnChar '.' ['.', 'e', 'n', 'v'] = [[], ['e', 'n', 'v']] := by decide
  rw [h2]
  have h3 : canonIndex [[], ['e', 'n', 'v']] = 1 := by decide
  rw [h3]
  simp [rebuildAux, hEnv]

/-- Counterexample for C7 as stated: with a Hasher that classifies
`dead` as a digest, the two-segment dotfile `/.dead` has its trailing
segment removed - `canonicalPath("/.dead")` collapses to `/`. -/
theorem dotfile_claim_counterexample :
    canonicalPath hashDead.isHash ['/', '.', 'd', 'e', 'a', 'd'] = ['/'] ∧
    (['/'] : List Char) ≠ ['/', '.', 'd', 'e', 'a', 'd'] := by decide

/-- Witness for the amended C7 with a concrete Hasher not recognizing
`env`. -/
theorem canonicalPath_dotfile_safety_witness :
    canonicalPath hashDead.isHash ['/', '.', 'e', 'n', 'v'] = ['/', '.', 'e', 'n', 'v'] :=
  canonicalPath_dotfile_safety hashDead.isHash (by rfl)

theorem splitOnChar_ne_nil (sep : Char) (l : List Char) : splitOnChar sep l ≠ [] := by
  induction l with
  | nil => simp [splitOnChar]
  | cons c rest ih =>
    unfold splitOnChar
    cases hq : splitOnChar sep rest with
    | nil => by_cases h : c = sep <;> simp [h, hq]
    | cons q qs => by_cases h : c = sep <;> simp [h, hq]

theorem splitOnChar_cons_exists (sep : Char) (l : List Char) :
    ∃ q qs, splitOnChar sep l = q :: qs := by
  cases hq : splitOnChar sep l with
  | nil => exact absurd hq (splitOnChar_ne_nil sep l)
  | cons q qs => exact ⟨q, qs, rfl⟩

theorem splitOnChar_append (sep : Char) (x y : List Char) :
    splitOnChar sep (x ++ sep :: y) = splitOnChar sep x ++ splitOnChar sep y := by
  induction x with
  | nil =>
    show splitOnChar sep (sep :: y) = splitOnChar sep [] ++ splitOnChar sep y
    simp only [splitOnChar]
    simp
  | cons c x' ih =>
    show splitOnChar sep (c :: (x' ++ sep :: y)) = splitOnChar sep (c :: x') ++ splitOnChar sep y
    simp only [splitOnChar]
    by_cases h : c = sep
    · rw [if_pos h, if_pos h, ih]
      rfl
    · obtain ⟨q, qs, hq⟩ := splitOnChar_cons_exists sep x'
      rw [if_neg h, if_neg h]
      simp only [ih, hq, List.cons_append]

theorem splitOnChar_of_not_mem (sep : Char) (l : List Char) (h : sep ∉ l) :
    splitOnChar sep l = [l] := by
  induction l with
  | nil => rfl
  | cons c rest ih =>
    have hc : ¬(c = sep) := fun he => h (by simp [he])
    have hr : sep ∉ rest := fun hm => h (by simp [hm])
    unfold splitOnChar
    rw [ih hr]
    simp [hc]

theorem joinChar_splitOnChar (sep : Char) (l : List Char) :
    joinChar sep (splitOnChar sep l) = l := by
  induction l with
  | nil => rfl
  | cons c rest ih =>
    obtain ⟨q, qs, hq⟩ := splitOnChar_cons_exists sep rest
    rw [hq] at ih
    simp only [splitOnChar]
    by_cases h : c = sep
    · rw [if_pos h, hq]
      show joinChar sep ([] :: q :: qs) = c :: rest
      have h2 : joinChar sep ([] :: q :: qs) = [] ++ sep :: joinChar sep (q :: qs) := rfl
      rw [h2, ih, ← h]
      rfl
    · rw [if_neg h]
      simp only [hq]
      cases qs with
      | nil =>
        show (c :: q) = c :: rest
        have h2 : joinChar sep [q] = q := rfl
        rw [h2] at ih
        rw [ih]
      | cons q2 qs' =>
        show joinChar sep ((c :: q) :: q2 :: qs') = c :: rest
        have h3 : joinChar sep ((c :: q) :: q2 :: qs') =
            (c :: q) ++ sep :: joinChar sep (q2 :: qs') := rfl
        have h4 : joinChar sep (q :: q2 :: qs') = q ++ sep :: joinChar sep (q2 :: qs') := rfl
        rw [h4] at ih
        rw [h3, ← ih]
        rfl

theorem lastIdxOf_none_of_not_mem (c : Char) (l : List Char) (h : c ∉ l) :
    lastIdxOf c l = none := by
  induction l with
  | nil => rfl
  | cons a rest ih =>
    have ha : ¬(a = c) := fun he => h (by simp [he])
    have hr : c ∉ rest := fun hm => h (by simp [hm])
    unfold lastIdxOf
    rw [ih hr]
    simp [ha]

theorem not_mem_of_lastIdxOf_none (c : Char) :
    ∀ (l : List Char), lastIdxOf c l = none → c ∉ l := by
  intro l
  induction l with
  | nil => intro _; simp
  | cons a rest ih =>
    intro h
    unfold lastIdxOf at h
    cases hr : lastIdxOf c rest with
    | some i => rw [hr] at h; exact absurd h (by simp)
    | none =>
      rw [hr] at h
      by_cases ha : a = c
      · rw [if_pos ha] at h; exact absurd h (by simp)
      · intro hm
        rcases List.mem_cons.mp hm with h1 | h2
        · exact ha h1.symm
        · exact ih hr h2

theorem lastIdxOf_eq_some (c : Char) :
    ∀ (l : List Char) (i : Nat), lastIdxOf c l = some i →
      ∃ a b, l = a ++ c :: b ∧ a.length = i ∧ c ∉ b := by
  intro l
  induction l with
  | nil => intro i h; simp [lastIdxOf] at h
  | cons x rest ih =>
    intro i h
    unfold lastIdxOf at h
    cases hr : lastIdxOf c rest with
    | some j =>
      rw [hr] at h
      have hi : j + 1 = i := by injection h
      obtain ⟨a, b, hab, hlen, hnb⟩ := ih j hr
      exact ⟨x :: a, b, by simp [hab], by simp [hlen, hi], hnb⟩
    | none =>
      rw [hr] at h
      by_cases hx : x = c
      · rw [if_pos hx] at h
        have hi : (0 : Nat) = i := by injection h
        exact ⟨[], rest, by simp [hx], hi, not_mem_of_lastIdxOf_none c rest hr⟩
      · rw [if_neg hx] at h; exact absurd h (by simp)

theorem takeLenAppend : ∀ (a b : List Char), (a ++ b).take a.length = a := by
  intro a
  induction a with
  | nil => intro b; rfl
  | cons x a' ih => intro b; simp [ih]

theorem dropLenAppend : ∀ (a b : List Char), (a ++ b).drop a.length = b := by
  intro a
  induction a with
  | nil => intro b; rfl
  | cons x a' ih => intro b; simp [ih]

theorem takeLenSuccAppend : ∀ (a : List Char) (x : Char) (b : List Char),
    (a ++ x :: b).take (a.length + 1) = a ++ [x] := by
  intro a
  induction a with
  | nil => intro x b; rfl
  | cons y a' ih => intro x b; simp [ih]

theorem dropLenSuccAppend : ∀ (a : List Char) (x : Char) (b : List Char),
    (a ++ x :: b).drop (a.length + 1) = b := by
  intro a
  induction a with
  | nil => intro x b; rfl
  | cons y a' ih => intro x b; simp [ih]

theorem lastIdxOf_append_last (c : Char) (g : List Char) (hg : c ∉ g) :
    ∀ (a : List Char), lastIdxOf c (a ++ c :: g) = some a.length := by
  intro a
  induction a with
  | nil =>
    show lastIdxOf c (c :: g) = some 0
    unfold lastIdxOf
    rw [lastIdxOf_none_of_not_mem c g hg]
    simp
  | cons x a' ih =>
    show lastIdxOf c (x :: (a' ++ c :: g)) = some (a'.length + 1)
    unfold lastIdxOf
    rw [ih]

theorem pathSplit_append (d g : List Char) (hg : '/' ∉ g)
    (hd : d = [] ∨ ∃ d', d = d' ++ ['/']) :
    pathSplit (d ++ g) = (d, g) := by
  rcases hd with hd | ⟨d', hd⟩
  · subst hd
    unfold pathSplit
    rw [List.nil_append, lastIdxOf_none_of_not_mem '/' g hg]
  · subst hd
    unfold pathSplit
    have hsh : (d' ++ ['/']) ++ g = d' ++ '/' :: g := by simp
    rw [hsh]
    simp only [lastIdxOf_append_last '/' g hg d']
    rw [takeLenSuccAppend, dropLenSuccAppend]

theorem pathSplit_append_fst (d g : List Char) (hg : '/' ∉ g)
    (hd : d = [] ∨ ∃ d', d = d' ++ ['/']) :
    (pathSplit (d ++ g)).1 = d := by
  rw [pathSplit_append d g hg hd]

theorem pathSplit_append_snd (d g : List Char) (hg : '/' ∉ g)
    (hd : d = [] ∨ ∃ d', d = d' ++ ['/']) :
    (pathSplit (d ++ g)).2 = g := by
  rw [pathSplit_append d g hg hd]

theorem pathSplit_decomp (p : List Char) :
    p = (pathSplit p).1 ++ (pathSplit p).2 ∧ '/' ∉ (pathSplit p).2 ∧
      ((pathSplit p).1 = [] ∨ ∃ d', (pathSplit p).1 = d' ++ ['/']) := by
  unfold pathSplit
  cases hL : lastIdxOf '/' p with
  | none => exact ⟨by simp, not_mem_of_lastIdxOf_none '/' p hL, Or.inl rfl⟩
  | some i =>
    obtain ⟨a, b, hab, hlen, hnb⟩ := lastIdxOf_eq_some '/' p i hL
    subst hab
    subst hlen
    simp only [takeLenSuccAppend, dropLenSuccAppend]
    exact ⟨by simp, hnb, Or.inr ⟨a, rfl⟩⟩

theorem rebuild_pair (isH : List Char → Bool) (f h : List Char) (hh : isH h = true) :
    rebuildAux isH 1 0 [f, h] = f := by
  simp [rebuildAux, hh]

theorem rebuild_dotfile (isH : List Char → Bool) (x h : List Char) (hh : isH h = true) :
    rebuildAux isH 2 0 [[], x, h] = '.' :: x := by
  simp [rebuildAux, hh]

theorem rebuild_skip_tail (isH : List Char → Bool) (hsh b : List Char) (hh : isH hsh = true) :
    ∀ (A : List (List Char)) (i : Nat), 1 ≤ i →
      rebuildAux isH (i + A.length) i (A ++ [hsh, b]) =
        (A.map (fun q => '.' :: q)).flatten ++ '.' :: b := by
  intro A
  induction A with
  | nil =>
    intro i hi
    show rebuildAux isH (i + 0) i [hsh, b] = _
    unfold rebuildAux
    rw [if_pos ⟨by omega, hh⟩]
    unfold rebuildAux
    rw [if_neg (fun hand => absurd hand.1 (by omega) : ¬(i + 1 = i + 0 ∧ isH b = true))]
    rw [if_pos (by omega : i + 1 ≠ 0)]
    unfold rebuildAux
    simp
  | cons q A' ih =>
    intro i hi
    show rebuildAux isH (i + (A'.length + 1)) i (q :: (A' ++ [hsh, b])) = _
    unfold rebuildAux
    rw [if_neg (fun hand => absurd hand.1 (by omega) : ¬(i = i + (A'.length + 1) ∧ isH q = true))]
    rw [if_pos (by omega : i ≠ 0)]
    have h3 : i + (A'.length + 1) = (i + 1) + A'.length := by omega
    rw [h3, ih (i + 1) (by omega)]
    simp

theorem joinChar_cons_eq : ∀ (A' : List (List Char)) (A0 : List Char),
    joinChar '.' (A0 :: A') = A0 ++ (A'.map (fun q => '.' :: q)).flatten := by
  intro A'
  induction A' with
  | nil => intro A0; simp [joinChar]
  | cons q A'' ih =>
    intro A0
    show joinChar '.' (A0 :: q :: A'') = _
    unfold joinChar
    rw [ih q]
    simp

theorem canonicalFile_noDot (isH : List Char → Bool) (f h : List Char)
    (hh : isH h = true) (hf : '.' ∉ f) (hhd : '.' ∉ h) :
    canonicalFile isH (f ++ '.' :: h) = f := by
  unfold canonicalFile
  rw [splitOnChar_append, splitOnChar_of_not_mem '.' f hf, splitOnChar_of_not_mem '.' h hhd]
  show rebuildAux isH ([f, h].length - canonIndex [f, h]) 0 [f, h] = f
  rw [show canonIndex [f, h] = 1 from rfl]
  exact rebuild_pair isH f h hh

theorem canonicalFile_dotfile (isH : List Char → Bool) (x h : List Char)
    (hh : isH h = true) (hx : '.' ∉ x) (hhd : '.' ∉ h) :
    canonicalFile isH (('.' :: x) ++ '.' :: h) = '.' :: x := by
  unfold canonicalFile
  rw [splitOnChar_append, splitOnChar_of_not_mem '.' h hhd]
  rw [show splitOnChar '.' ('.' :: x) = [] :: splitOnChar '.' x from by
    simp only [splitOnChar]; simp]
  rw [splitOnChar_of_not_mem '.' x hx]
  show rebuildAux isH ([[], x, h].length - canonIndex [[], x, h]) 0 [[], x, h] = '.' :: x
  rw [show canonIndex [[], x, h] = 1 from rfl]
  exact rebuild_dotfile isH x h hh

theorem canonicalFile_extension (isH : List Char → Bool) (a b h : List Char)
    (hh : isH h = true) (ha : a ≠ []) (hb : '.' ∉ b) (hhd : '.' ∉ h) :
    canonicalFile isH (a ++ '.' :: (h ++ '.' :: b)) = a ++ '.' :: b := by
  unfold canonicalFile
  rw [splitOnChar_append, splitOnChar_append, splitOnChar_of_not_mem '.' h hhd,
    splitOnChar_of_not_mem '.' b hb]
  obtain ⟨A0, A', hA⟩ := splitOnChar_cons_exists '.' a
  rw [hA]
  have hja : joinChar '.' (A0 :: A') = a := by rw [← hA]; exact joinChar_splitOnChar '.' a
  have hlen : ((A0 :: A') ++ ([h] ++ [b])).length = A'.length + 3 := by simp
  have hci : canonIndex ((A0 :: A') ++ ([h] ++ [b])) = 2 := by
    unfold canonIndex
    rw [if_pos ?cond]
    case cond =>
      constructor
      · rw [hlen]; omega
      · rintro ⟨h3, hhd2⟩
        have hA0 : A' = [] := by
          have : A'.length = 0 := by rw [hlen] at h3; omega
          exact List.length_eq_zero.mp this
        subst hA0
        have hA0a : A0 = a := by simpa [joinChar] using hja
        simp at hhd2
        exact ha (by rw [← hA0a, hhd2])
  rw [hci]
  have hskip : ((A0 :: A') ++ ([h] ++ [b])).length - 2 = A'.length + 1 := by rw [hlen]; omega
  rw [hskip]
  rw [show (A0 :: A') ++ ([h] ++ [b]) = A0 :: (A' ++ [h, b]) from by simp]
  unfold rebuildAux
  rw [if_neg (fun hand => absurd hand.1 (by omega) : ¬((0 : Nat) = A'.length + 1 ∧ isH A0 = true))]
  rw [if_neg (by simp : ¬((0 : Nat) ≠ 0))]
  rw [show A'.length + 1 = 1 + A'.length from by omega]
  rw [rebuild_skip_tail isH h b hh A' 1 (le_refl 1)]
  rw [← List.append_assoc, ← joinChar_cons_eq A' A0, hja]

/-- Claim C1 (amended): round-trip law - for every path `c` and digest
`h ≠ ""` that the Hasher classifies as a digest, provided additionally
that `h` contains no `.` and no `/` character (and, as in the claim,
that no dot-separated component of `c`'s filename is classified as a
digest), `canonicalPath(hashedPath(c, h)) = c`. -/
theorem canonicalPath_hashedPath_roundTrip (isH : List Char → Bool) (c h : List Char)
    (hne : h ≠ []) (hh : isH h = true) (hdot : '.' ∉ h) (hslash : '/' ∉ h)
    (_hc : ∀ q ∈ splitOnChar '.' (pathSplit c).2, isH q = false) :
    canonicalPath isH (hashedPath c h) = c := by
  obtain ⟨hceq, hfns, hdform⟩ := pathSplit_decomp c
  unfold hashedPath
  rw [if_neg hne]
  cases hL : lastIdxOf '.' (pathSplit c).2 with
  | none =>
    simp only [hL]
    have hfd : '.' ∉ (pathSplit c).2 := not_mem_of_lastIdxOf_none '.' _ hL
    have hg1 : '/' ∉ (pathSplit c).2 ++ '.' :: h := by
      intro hm
      rcases List.mem_append.mp hm with hm1 | hm2
      · exact hfns hm1
      · rcases List.mem_cons.mp hm2 with hm3 | hm4
        · exact absurd hm3 (by decide)
        · exact hslash hm4
    unfold canonicalPath
    rw [pathSplit_append_fst (pathSplit c).1 _ hg1 hdform,
      pathSplit_append_snd (pathSplit c).1 _ hg1 hdform]
    rw [canonicalFile_noDot isH _ h hh hfd hdot]
    exact hceq.symm
  | some i =>
    simp only [hL]
    obtain ⟨a, b, hab, hlen, hnb⟩ := lastIdxOf_eq_some '.' (pathSplit c).2 i hL
    by_cases hi : 0 < i
    · rw [if_pos hi]
      have hta : (pathSplit c).2.take i = a := by rw [hab, ← hlen]; exact takeLenAppend a _
      have hdb : (pathSplit c).2.drop i = '.' :: b := by rw [hab, ← hlen]; exact dropLenAppend a _
      rw [hta, hdb]
      have ha : a ≠ [] := by
        intro he
        rw [he] at hlen
        simp at hlen
        omega
      have hsa : '/' ∉ a := by
        intro hm
        exact hfns (by rw [hab]; simp [hm])
      have hsb : '/' ∉ b := by
        intro hm
        exact hfns (by rw [hab]; simp [hm])
      have hg2 : '/' ∉ a ++ '.' :: (h ++ '.' :: b) := by
        intro hm
        rcases List.mem_append.mp hm with hm1 | hm2
        · exact hsa hm1
        · rcases List.mem_cons.mp hm2 with hm3 | hm4
          · exact absurd hm3 (by decide)
          · rcases List.mem_append.mp hm4 with hm5 | hm6
            · exact hslash hm5
            · rcases List.mem_cons.mp hm6 with hm7 | hm8
              · exact absurd hm7 (by decide)
              · exact hsb hm8
      unfold canonicalPath
      rw [pathSplit_append_fst (pathSplit c).1 _ hg2 hdform,
        pathSplit_append_snd (pathSplit c).1 _ hg2 hdform]
      rw [canonicalFile_extension isH a b h hh ha hnb hdot]
      rw [← hab]
      exact hceq.symm
    · rw [if_neg hi]
      have ha0 : a = [] := List.length_eq_zero.mp (by omega)
      rw [ha0] at hab
      simp only [List.nil_append] at hab
      have hg3 : '/' ∉ (pathSplit c).2 ++ '.' :: h := by
        intro hm
        rcases List.mem_append.mp hm with hm1 | hm2
        · exact hfns hm1
        · rcases List.mem_cons.mp hm2 with hm3 | hm4
          · exact absurd hm3 (by decide)
          · exact hslash hm4
      unfold canonicalPath
      rw [pathSplit_append_fst (pathSplit c).1 _ hg3 hdform,
        pathSplit_append_snd (pathSplit c).1 _ hg3 hdform]
      rw [hab]
      rw [canonicalFile_dotfile isH b h hh hnb hdot]
      rw [← hab]
      exact hceq.symm

/-- Counterexample for C1 as stated: with a Hasher accepting the
dotted digest `a.b`, hashing `app.css` with it and parsing back does
not return `app.css`, even though all the claim's hypotheses hold
(the digest is non-empty and accepted, and no dot-component of the
canonical filename is a digest). -/
theorem roundTrip_claim_counterexample :
    hashDotted.isHash ['a', '.', 'b'] = true ∧
    (['a', '.', 'b'] : List Char) ≠ [] ∧
    (∀ q ∈ splitOnChar '.' (pathSplit ['a', 'p', 'p', '.', 'c', 's', 's']).2,
      hashDotted.isHash q = false) ∧
    canonicalPath hashDotted.isHash
        (hashedPath ['a', 'p', 'p', '.', 'c', 's', 's'] ['a', '.', 'b']) ≠
      ['a', 'p', 'p', '.', 'c', 's', 's'] := by decide

/-- Witness for the amended C1: the round trip on `/css/app.css` with
the dot-free digest `dead`. -/
theorem canonicalPath_hashedPath_roundTrip_witness :
    canonicalPath hashDead.isHash
        (hashedPath ['/', 'c', 's', 's', '/', 'a', 'p', 'p', '.', 'c', 's', 's']
          ['d', 'e', 'a', 'd']) =
      ['/', 'c', 's', 's', '/', 'a', 'p', 'p', '.', 'c', 's', 's'] :=
  canonicalPath_hashedPath_roundTrip hashDead.isHash
    ['/', 'c', 's', 's', '/', 'a', 'p', 'p', '.', 'c', 's', 's'] ['d', 'e', 'a', 'd']
    (by decide) (by rfl) (by decide) (by decide) (by decide)
